import Mathlib

/-!
Shallow embedding of the fountain-code (Luby Transform) encoding engine of
the `qrs` repository: the CRC-32 checksum, the block codec, the slicer, the
Ideal-Soliton degree sampler, the index sampler and the `LtEncoder` class.

Bytes are modelled as natural numbers below 256 (the contents of a JS
`Uint8Array`), 32-bit words as natural numbers reduced modulo 2^32 (the
value a JS `Uint32Array` cell stores).  JS `Math.random()` draws are passed
in explicitly: a rational in [0,1) for the degree sampler, and a list of
already-scaled values `Math.floor(Math.random()*k) < k` for the index
sampler, so every function is a pure function of its randomness source.
-/

namespace QRS

/-- One entry of the JS `CRC_TABLE`: eight rounds of
`crc = (crc & 1) ? 0xEDB88320 ^ (crc >>> 1) : crc >>> 1` starting from the
table index. -/
def crcTableEntry (i : Nat) : Nat :=
  (List.range 8).foldl
    (fun crc _ => if crc % 2 = 1 then Nat.xor 0xEDB88320 (crc / 2) else crc / 2) i

/-- JS `crc32(buf)`: table-driven IEEE CRC-32,
`crc = (crc >>> 8) ^ CRC_TABLE[(crc ^ buf[i]) & 0xFF]` folded over the
buffer from `0xFFFFFFFF`, with a final XOR by `0xFFFFFFFF`. -/
def crc32 (buf : List Nat) : Nat :=
  Nat.xor
    (buf.foldl (fun crc b => Nat.xor (crc / 256) (crcTableEntry (Nat.xor crc b % 256)))
      0xFFFFFFFF)
    0xFFFFFFFF

/-- JS `getChecksum(data, k) = crc32(data) ^ k`; the 32-bit pattern of the
JS xor is the unsigned value `Nat.xor (crc32 data) k`. -/
def getChecksum (data : List Nat) (k : Nat) : Nat :=
  Nat.xor (crc32 data) k

/-- The `EncodedBlock` record of the source. -/
structure EncodedBlock where
  k : Nat
  bytes : Nat
  checksum : Nat
  indices : List Nat
  data : List Nat
deriving DecidableEq

/-- The four bytes a JS `Uint32Array` cell occupies on a little-endian host
(every mainstream JS engine), least significant byte first. -/
def toBytesLE (w : Nat) : List Nat :=
  [w % 256, w / 256 % 256, w / 65536 % 256, w / 16777216 % 256]

/-- JS `blockToBinary(block)`: the `Uint32Array` header
`[indices.length, ...indices, k, bytes, checksum]` viewed through its
backing buffer (host little-endian bytes, each word reduced mod 2^32 by the
`Uint32Array` store), followed by `data` verbatim. -/
def blockToBinary (b : EncodedBlock) : List Nat :=
  ((([b.indices.length] ++ b.indices ++ [b.k, b.bytes, b.checksum]).map
      (fun w => w % 4294967296)).map toBytesLE).flatten ++ b.data

/-- `DataView.getUint32(off, false)`: big-endian 32-bit read; `none` models
the `RangeError` thrown when fewer than four bytes remain at `off`. -/
def readU32BE (bytes : List Nat) (off : Nat) : Option Nat :=
  if off + 4 ≤ bytes.length then
    some (bytes.getD off 0 * 16777216 + bytes.getD (off + 1) 0 * 65536 +
          bytes.getD (off + 2) 0 * 256 + bytes.getD (off + 3) 0)
  else none

/-- The index-extraction loop of `binaryToBlock`: `count` consecutive
big-endian words starting at byte offset `off`; `none` as soon as a read
would run past the end of the buffer. -/
def readWordsBE (bytes : List Nat) : Nat → Nat → Option (List Nat)
  | _, 0 => some []
  | off, c + 1 =>
    match readU32BE bytes off with
    | none => none
    | some v =>
      match readWordsBE bytes (off + 4) c with
      | none => none
      | some vs => some (v :: vs)

/-- JS `binaryToBlock(binary)`: reads the degree at offset 0, then `degree`
indices, then `k`, `bytes`, `checksum`, all as big-endian words via
`DataView`, and takes the remainder of the buffer as `data`
(`binary.slice((degree+4)*4)`, which never fails). `none` models the
`RangeError` a short buffer provokes; the function performs no other
validation. -/
def binaryToBlock (binary : List Nat) : Option EncodedBlock :=
  match readU32BE binary 0 with
  | none => none
  | some degree =>
    match readWordsBE binary 4 degree with
    | none => none
    | some indices =>
      match readU32BE binary ((degree + 1) * 4), readU32BE binary ((degree + 2) * 4),
            readU32BE binary ((degree + 3) * 4) with
      | some k, some bytes, some checksum =>
        some ⟨k, bytes, checksum, indices, binary.drop ((degree + 4) * 4)⟩
      | _, _, _ => none

/-- Modelled from the spec: §4.2's binary layout writes the same header
words in big-endian byte order.  Present only to compare against the
source's `blockToBinary`. -/
def toBytesBE (w : Nat) : List Nat :=
  [w / 16777216 % 256, w / 65536 % 256, w / 256 % 256, w % 256]

/-- Modelled from the spec: the §4.2 serializer (big-endian words, then the
data verbatim), to be diffed against the source's `blockToBinary`. -/
def blockToBinaryBE (b : EncodedBlock) : List Nat :=
  ((([b.indices.length] ++ b.indices ++ [b.k, b.bytes, b.checksum]).map
      (fun w => w % 4294967296)).map toBytesBE).flatten ++ b.data

/-- A minimal well-formed block: degree 1, the single index 0 for `k = 1`,
one data byte, `sliceSize = 1`. -/
def blockB0 : EncodedBlock :=
  ⟨1, 1, 0, [0], [7]⟩

/-- The inner XOR loop of `createBlock`
(`data[i] = data[i] ^ indicesIndex[i]` for `i` below `data.length`): the
result keeps the first argument's length, and positions past the end of the
second argument are left unchanged (in JS `x ^ undefined` coerces
`undefined` to 0). -/
def xorArr : List Nat → List Nat → List Nat
  | [], _ => []
  | a :: as, [] => a :: xorArr as []
  | a :: as, b :: bs => Nat.xor a b :: xorArr as bs

/-- The loop body of JS `sliceData`: one chunk per iteration,
`new Uint8Array(blockSize)` (all zeros) overlaid with
`data.slice(i, i + blockSize)`.  The fuel argument counts loop iterations;
the wrapper passes `data.length`, which the loop (advancing by
`bs ≥ 1` positions per step) never exhausts.  For `bs = 0` the JS loop
never terminates on non-empty data; fuel exhaustion models that case as an
unreachable cutoff. -/
def sliceGo (bs : Nat) : Nat → List Nat → List (List Nat)
  | _, [] => []
  | 0, _ :: _ => []
  | fuel + 1, x :: xs =>
    ((x :: xs).take bs ++ List.replicate (bs - ((x :: xs).take bs).length) 0)
      :: sliceGo bs fuel ((x :: xs).drop bs)

/-- JS `sliceData(data, blockSize)`: contiguous zero-padded chunks. -/
def sliceData (data : List Nat) (bs : Nat) : List (List Nat) :=
  sliceGo bs data.length data

/-- The `LtEncoder` instance fields set by the constructor.  The slice
table is called `indices` in the source (`this.indices`). -/
structure LtEncoder where
  data : List Nat
  sliceSize : Nat
  compressed : List Nat
  indices : List (List Nat)
  k : Nat
  checksum : Nat
  bytes : Nat

/-- The JS `LtEncoder` constructor.  `deflate` stands for the external
`pako.deflate` used when `compress` is true
(`this.compressed = compress ? pako.deflate(data) : data`); `none` is the
`compress = false` path.  The constructor never throws: it slices the
compressed payload, sets `k` to the slice count (0 if the compressed
payload is empty), and computes the checksum over the ORIGINAL `data`. -/
def LtEncoder.make (deflate : Option (List Nat → List Nat)) (data : List Nat)
    (sliceSize : Nat) : LtEncoder :=
  let compressed := match deflate with
    | some f => f data
    | none => data
  let slices := sliceData compressed sliceSize
  { data := data
    sliceSize := sliceSize
    compressed := compressed
    indices := slices
    k := slices.length
    checksum := getChecksum data slices.length
    bytes := compressed.length }

/-- JS `LtEncoder.createBlock(indices)`: XOR the named slices into an
all-zero buffer of `sliceSize` bytes and package it with the encoder's
constant header fields.  `none` models the `TypeError` thrown when
`this.indices[index]` is `undefined` and the loop body dereferences it
(which requires `sliceSize > 0` for the body to run at all). -/
def LtEncoder.createBlock (enc : LtEncoder) (idxs : List Nat) : Option EncodedBlock :=
  if enc.sliceSize = 0 ∨ ∀ i ∈ idxs, i < enc.indices.length then
    some { k := enc.k
           bytes := enc.bytes
           checksum := enc.checksum
           indices := idxs
           data := idxs.foldl (fun acc i => xorArr acc (enc.indices.getD i []))
             (List.replicate enc.sliceSize 0) }
  else none

/-- The probability table built by JS `getRandomDegree`:
`probabilities[0] = 1/k` and `probabilities[d-1] = 1/(d*(d-1))` for
`d = 2..k`, as exact rationals (the JS source uses floating point). -/
def isdProbabilities (k : Nat) : List ℚ :=
  (List.range k).map fun (j : ℕ) =>
    if j = 0 then 1 / (k : ℚ) else 1 / (((j : ℚ) + 1) * (j : ℚ))

/-- The accumulation loop of JS `getRandomDegree`
(`sum += p; cumulativeProbabilities.push(sum)`). -/
def cumulativeFrom (s : ℚ) : List ℚ → List ℚ
  | [] => []
  | p :: ps => (s + p) :: cumulativeFrom (s + p) ps

/-- The selection loop of JS `getRandomDegree`: the 1-based position of the
first cumulative value strictly above the draw, `none` if the scan falls
through. -/
def scanPick (rv : ℚ) : List ℚ → Option Nat
  | [] => none
  | c :: cs => if rv < c then some 1 else (scanPick rv cs).map (· + 1)

/-- JS `getRandomDegree(k)` with the `Math.random()` draw `rv` passed
explicitly: the first degree whose cumulative Ideal-Soliton probability
exceeds the draw, falling back to `k` when the scan is exhausted
(the source's final `return k`). -/
def getRandomDegree (k : Nat) (rv : ℚ) : Nat :=
  (scanPick rv (cumulativeFrom 0 (isdProbabilities k))).getD k

/-- Cumulative Ideal-Soliton probability of degrees `1..d`, the value the
scan of `getRandomDegree` compares the draw against. -/
def isdCum (k d : Nat) : ℚ :=
  ((isdProbabilities k).take d).sum

/-- One `indices.add(randomIndex)` step of JS `getRandomIndices`: a JS
`Set` keeps insertion order and ignores elements already present. -/
def addIndex (s : List Nat) (x : Nat) : List Nat :=
  if x ∈ s then s else s ++ [x]

/-- The `while (indices.size < degree)` loop of JS `getRandomIndices`,
consuming one pre-drawn value `Math.floor(Math.random()*k)` per iteration;
`none` models a run whose draw supply ends before the set reaches
`degree` elements (the JS loop would keep drawing). -/
def griGo (degree : Nat) : List Nat → List Nat → Option (List Nat)
  | draws, acc =>
    if degree ≤ acc.length then some acc
    else
      match draws with
      | [] => none
      | d :: ds => griGo degree ds (addIndex acc d)

/-- JS `getRandomIndices(k, degree)` over an explicit list of draws (each a
`Math.floor(Math.random()*k)`, hence below `k`); returns the `Set` contents
in insertion order (`Array.from(indices)`). -/
def getRandomIndices (k degree : Nat) (draws : List Nat) : Option (List Nat) :=
  griGo degree draws []

/-- One `yield` of the JS `LtEncoder.fountain()` generator: draw a degree,
draw that many distinct indices, and build the block. -/
def fountainStep (enc : LtEncoder) (rv : ℚ) (draws : List Nat) : Option EncodedBlock :=
  match getRandomIndices enc.k (getRandomDegree enc.k rv) draws with
  | none => none
  | some idxs => enc.createBlock idxs

/-- A concrete encoder over five one-byte slices (`k = 5`), no
compression. -/
def encFive : LtEncoder :=
  LtEncoder.make none [10, 20, 30, 40, 50] 1

/-- A concrete encoder over `[1, 2, 3]` with `sliceSize = 2`
(`k = 2`, last slice zero-padded), no compression. -/
def encPad : LtEncoder :=
  LtEncoder.make none [1, 2, 3] 2

/-- The byte sequence of the standard CRC-32 test vector. -/
def quickFox : List Nat :=
  "The quick brown fox jumps over the lazy dog".toList.map Char.toNat

/-! ## Helper lemmas -/

lemma xorArr_length (a : List Nat) : ∀ b, (xorArr a b).length = a.length := by
  induction a with
  | nil => intro b; cases b <;> rfl
  | cons x xs ih => intro b; cases b <;> simp [xorArr, ih]

lemma xorArr_replicate_zero (s : List Nat) :
    xorArr (List.replicate s.length 0) s = s := by
  induction s with
  | nil => rfl
  | cons x xs ih =>
    simp [List.replicate_succ, xorArr, ih]
    exact Nat.zero_xor x

lemma foldl_xorArr_length (f : Nat → List Nat) (idxs : List Nat) :
    ∀ init : List Nat,
      (idxs.foldl (fun acc i => xorArr acc (f i)) init).length = init.length := by
  induction idxs with
  | nil => intro init; rfl
  | cons x xs ih => intro init; rw [List.foldl_cons, ih, xorArr_length]

lemma sliceGo_nil (bs : Nat) : ∀ fuel, sliceGo bs fuel [] = [] := by
  intro fuel; cases fuel <;> rfl

lemma sliceGo_mem_length (bs : Nat) :
    ∀ fuel data s, s ∈ sliceGo bs fuel data → s.length = bs := by
  intro fuel
  induction fuel with
  | zero => intro data s hs; cases data <;> simp [sliceGo, sliceGo_nil] at hs
  | succ f ih =>
    intro data s hs
    cases data with
    | nil => simp [sliceGo_nil] at hs
    | cons x xs =>
      simp only [sliceGo, List.mem_cons] at hs
      rcases hs with h | h
      · subst h
        simp [List.length_append, List.length_replicate]
      · exact ih _ _ h

lemma sliceGo_length (bs : Nat) (hb : 1 ≤ bs) :
    ∀ fuel data, data.length ≤ fuel → data ≠ [] →
      (sliceGo bs fuel data).length = (data.length - 1) / bs + 1 := by
  intro fuel
  induction fuel with
  | zero => intro data hf hd; cases data <;> simp_all
  | succ f ih =>
    intro data hf hd
    cases data with
    | nil => simp_all
    | cons x xs =>
      simp only [sliceGo, List.length_cons]
      by_cases hrest : (x :: xs).drop bs = []
      · rw [hrest, sliceGo_nil]
        have hlen : xs.length + 1 ≤ bs := by
          have := List.length_drop bs (x :: xs)
          rw [hrest] at this
          simp at this
          omega
        have : xs.length / bs = 0 := Nat.div_eq_of_lt (by omega)
        simp [this]
      · have hlen : bs < xs.length + 1 := by
          by_contra hcon
          exact hrest (List.drop_eq_nil_of_le (by simpa using Nat.le_of_not_lt hcon))
        have hdlen : ((x :: xs).drop bs).length = xs.length + 1 - bs := by
          simp [List.length_drop]
        have hf' : xs.length + 1 ≤ f + 1 := by simpa using hf
        rw [ih _ (by rw [hdlen]; omega) hrest, hdlen]
        have hsub : xs.length + 1 - bs - 1 = xs.length - bs := by omega
        rw [hsub]
        have hdiv : xs.length / bs = (xs.length - bs) / bs + 1 :=
          Nat.div_eq_sub_div (by omega) (by omega)
        simp [List.length_cons, Nat.add_sub_cancel]
        omega

lemma sliceGo_flatten (bs : Nat) (hb : 1 ≤ bs) :
    ∀ fuel data, data.length ≤ fuel →
      (sliceGo bs fuel data).flatten =
        data ++ List.replicate ((sliceGo bs fuel data).length * bs - data.length) 0 := by
  intro fuel
  induction fuel with
  | zero => intro data hf; cases data <;> simp_all [sliceGo]
  | succ f ih =>
    intro data hf
    cases data with
    | nil => simp [sliceGo_nil]
    | cons x xs
    =>
      simp only [sliceGo, List.flatten_cons, List.length_cons]
      by_cases hrest : (x :: xs).drop bs = []
      · have hlen : xs.length + 1 ≤ bs := by
          have := List.length_drop bs (x :: xs)
          rw [hrest] at this
          simp at this
          omega
        rw [hrest, sliceGo_nil]
        have htake : (x :: xs).take bs = x :: xs := List.take_of_length_le (by simpa)
        simp [htake, Nat.one_mul]
      · have hlen : bs < xs.length + 1 := by
          by_contra hcon
          exact hrest (List.drop_eq_nil_of_le (by simpa using Nat.le_of_not_lt hcon))
        have htlen : ((x :: xs).take bs).length = bs := by
          simp [List.length_take]; omega
        have hdlen : ((x :: xs).drop bs).length = xs.length + 1 - bs := by
          simp [List.length_drop]
        have hpad : bs - ((x :: xs).take bs).length = 0 := by omega
        rw [hpad]
        have hf' : xs.length + 1 ≤ f + 1 := by simpa using hf
        have hih := ih ((x :: xs).drop bs) (by rw [hdlen]; omega)
        rw [List.replicate_zero, List.append_nil, hih, hdlen]
        rw [← List.append_assoc, List.take_append_drop]
        congr 1
        have hmul : ((sliceGo bs f ((x :: xs).drop bs)).length + 1) * bs =
            (sliceGo bs f ((x :: xs).drop bs)).length * bs + bs := by
          ring
        rw [hmul]
        congr 1
        omega

lemma addIndex_subset (acc : List Nat) (d x : Nat) (hx : x ∈ addIndex acc d) :
    x ∈ acc ∨ x = d := by
  unfold addIndex at hx
  split at hx
  · exact Or.inl hx
  · rcases List.mem_append.mp hx with h | h
    · exact Or.inl h
    · exact Or.inr (by simpa using h)

lemma addIndex_nodup (acc : List Nat) (d : Nat) (h : acc.Nodup) :
    (addIndex acc d).Nodup := by
  unfold addIndex
  split
  · exact h
  · next hd =>
    rw [List.nodup_append]
    refine ⟨h, List.nodup_singleton d, ?_⟩
    intro a ha hb
    have hab : a = d := by simpa using hb
    exact hd (hab ▸ ha)

lemma addIndex_length (acc : List Nat) (d : Nat) :
    (addIndex acc d).length ≤ acc.length + 1 := by
  unfold addIndex
  split <;> simp

lemma griGo_some (k degree : Nat) :
    ∀ draws acc l, (∀ d ∈ draws, d < k) → (∀ x ∈ acc, x < k) → acc.Nodup →
      acc.length ≤ degree → griGo degree draws acc = some l →
      l.length = degree ∧ l.Nodup ∧ ∀ x ∈ l, x < k := by
  intro draws
  induction draws with
  | nil =>
    intro acc l _ hacc hnd hlen hret
    unfold griGo at hret
    split at hret
    · next hge =>
      cases hret
      exact ⟨Nat.le_antisymm hlen hge, hnd, hacc⟩
    · cases hret
  | cons d ds ih =>
    intro acc l hdr hacc hnd hlen hret
    unfold griGo at hret
    split at hret
    · next hge =>
      cases hret
      exact ⟨Nat.le_antisymm hlen hge, hnd, hacc⟩
    · next hlt =>
      have hd : d < k := hdr d (List.mem_cons_self d ds)
      refine ih (addIndex acc d) l (fun a ha => hdr a (List.mem_cons_of_mem d ha)) ?_ ?_ ?_ hret
      · intro x hx
        rcases addIndex_subset acc d x hx with h | h
        · exact hacc x h
        · exact h ▸ hd
      · exact addIndex_nodup acc d hnd
      · have := addIndex_length acc d
        omega

lemma cumulativeFrom_length (l : List ℚ) : ∀ s, (cumulativeFrom s l).length = l.length := by
  induction l with
  | nil => intro s; rfl
  | cons p ps ih => intro s; simp [cumulativeFrom, ih]

lemma cumulativeFrom_getD (l : List ℚ) :
    ∀ s j, j < l.length → (cumulativeFrom s l).getD j 0 = s + (l.take (j + 1)).sum := by
  induction l with
  | nil => intro s j hj; simp at hj
  | cons p ps ih =>
    intro s j hj
    cases j with
    | zero => simp [cumulativeFrom]
    | succ j =>
      simp only [cumulativeFrom, List.getD_cons_succ, List.take_succ_cons, List.sum_cons]
      rw [ih (s + p) j (by simpa using hj)]
      ring

lemma scanPick_some (rv : ℚ) :
    ∀ cs i, scanPick rv cs = some i →
      1 ≤ i ∧ i ≤ cs.length ∧ rv < cs.getD (i - 1) 0 ∧
        ∀ j, j + 1 < i → ¬ rv < cs.getD j 0 := by
  intro cs
  induction cs with
  | nil => intro i h; simp [scanPick] at h
  | cons c cs' ih =>
    intro i h
    unfold scanPick at h
    split at h
    · next hc =>
      cases h
      refine ⟨le_refl 1, by simp, by simpa using hc, ?_⟩
      intro j hj
      omega
    · next hc =>
      rcases Option.map_eq_some'.mp h with ⟨i', hi', rfl⟩
      obtain ⟨h1, h2, h3, h4⟩ := ih i' hi'
      refine ⟨by omega, by simpa using Nat.add_le_add_right h2 1, ?_, ?_⟩
      · have : i' + 1 - 1 = (i' - 1) + 1 := by omega
        rw [this, List.getD_cons_succ]
        exact h3
      · intro j hj
        cases j with
        | zero => simpa using hc
        | succ j => rw [List.getD_cons_succ]; exact h4 j (by omega)

lemma scanPick_none (rv : ℚ) :
    ∀ cs, scanPick rv cs = none → ∀ c ∈ cs, ¬ rv < c := by
  intro cs
  induction cs with
  | nil => intro _ c hc; simp at hc
  | cons c cs' ih =>
    intro h x hx
    unfold scanPick at h
    split at h
    · cases h
    · next hc =>
      rcases List.mem_cons.mp hx with rfl | hx'
      · exact hc
      · exact ih (by simpa using h) x hx'

lemma isdProbabilities_length (k : Nat) : (isdProbabilities k).length = k := by
  unfold isdProbabilities
  rw [List.length_map, List.length_range]

lemma isd_tail_sum :
    ∀ m : Nat,
      ((List.range m).map (fun (j : ℕ) => 1 / (((j : ℚ) + 2) * ((j : ℚ) + 1)))).sum =
        1 - 1 / ((m : ℚ) + 1) := by
  intro m
  induction m with
  | zero => norm_num
  | succ m ih =>
    rw [List.range_succ, List.map_append, List.sum_append, ih]
    have h1 : ((m : ℚ) + 1) ≠ 0 := by positivity
    have h2 : ((m : ℚ) + 2) ≠ 0 := by positivity
    push_cast
    field_simp
    ring

lemma isdProbabilities_sum (k : Nat) (hk : 1 ≤ k) : (isdProbabilities k).sum = 1 := by
  obtain ⟨m, rfl⟩ : ∃ m, k = m + 1 := ⟨k - 1, by omega⟩
  unfold isdProbabilities
  rw [List.range_succ_eq_map]
  simp only [List.map_cons, List.map_map, List.sum_cons]
  have hfun :
      ((fun (j : ℕ) => if j = 0 then 1 / ((m + 1 : Nat) : ℚ)
          else 1 / (((j : ℚ) + 1) * (j : ℚ))) ∘ Nat.succ) =
        fun (j : ℕ) => 1 / (((j : ℚ) + 2) * ((j : ℚ) + 1)) := by
    funext j
    simp only [Function.comp_apply, Nat.succ_ne_zero, if_false]
    push_cast
    ring_nf
  rw [hfun, isd_tail_sum m]
  have h1 : ((m : ℚ) + 1) ≠ 0 := by positivity
  norm_num

lemma isdCum_total (k : Nat) (hk : 1 ≤ k) : isdCum k k = 1 := by
  unfold isdCum
  rw [List.take_of_length_le (by rw [isdProbabilities_length])]
  exact isdProbabilities_sum k hk

lemma cums_getD_eq_isdCum (k d : Nat) (h1 : 1 ≤ d) (h2 : d ≤ k) :
    (cumulativeFrom 0 (isdProbabilities k)).getD (d - 1) 0 = isdCum k d := by
  rw [cumulativeFrom_getD _ 0 (d - 1) (by rw [isdProbabilities_length]; omega)]
  have : d - 1 + 1 = d := by omega
  rw [this, isdCum, zero_add]

lemma getRandomDegree_pos (k : Nat) (hk : 1 ≤ k) (rv : ℚ) :
    1 ≤ getRandomDegree k rv := by
  unfold getRandomDegree
  cases hs : scanPick rv (cumulativeFrom 0 (isdProbabilities k)) with
  | none => simpa using hk
  | some i => simpa using (scanPick_some rv _ i hs).1

lemma getRandomDegree_le (k : Nat) (rv : ℚ) :
    getRandomDegree k rv ≤ k := by
  unfold getRandomDegree
  cases hs : scanPick rv (cumulativeFrom 0 (isdProbabilities k)) with
  | none => simp
  | some i =>
    have h := (scanPick_some rv _ i hs).2.1
    rw [cumulativeFrom_length, isdProbabilities_length] at h
    simpa using h

lemma getRandomDegree_exceeds (k : Nat) (hk : 1 ≤ k) (rv : ℚ) (hrv : rv < 1) :
    rv < isdCum k (getRandomDegree k rv) := by
  unfold getRandomDegree
  cases hs : scanPick rv (cumulativeFrom 0 (isdProbabilities k)) with
  | none =>
    simpa [isdCum_total k hk] using hrv
  | some i =>
    obtain ⟨hi1, hi2, hi3, _⟩ := scanPick_some rv _ i hs
    rw [cumulativeFrom_length, isdProbabilities_length] at hi2
    rw [cums_getD_eq_isdCum k i hi1 hi2] at hi3
    simpa using hi3

lemma getRandomDegree_min (k : Nat) (rv : ℚ) :
    ∀ d, 1 ≤ d → d < getRandomDegree k rv → isdCum k d ≤ rv := by
  intro d hd1 hd2
  revert hd2
  unfold getRandomDegree
  cases hs : scanPick rv (cumulativeFrom 0 (isdProbabilities k)) with
  | none =>
    intro hd2
    simp only [Option.getD_none] at hd2
    have hmem : (cumulativeFrom 0 (isdProbabilities k)).getD (d - 1) 0 ∈
        cumulativeFrom 0 (isdProbabilities k) := by
      have hlen : d - 1 < (cumulativeFrom 0 (isdProbabilities k)).length := by
        rw [cumulativeFrom_length, isdProbabilities_length]; omega
      rw [List.getD_eq_getElem _ _ hlen]
      exact List.getElem_mem hlen
    have := scanPick_none rv _ hs _ hmem
    rw [cums_getD_eq_isdCum k d hd1 (by omega)] at this
    exact le_of_not_lt this
  | some i =>
    intro hd2
    simp only [Option.getD_some] at hd2
    obtain ⟨hi1, hi2, _, hmin⟩ := scanPick_some rv _ i hs
    rw [cumulativeFrom_length, isdProbabilities_length] at hi2
    have := hmin (d - 1) (by omega)
    rw [cums_getD_eq_isdCum k d hd1 (by omega)] at this
    exact le_of_not_lt this

lemma xor_lt_32 {a b : Nat} (ha : a < 4294967296) (hb : b < 4294967296) :
    Nat.xor a b < 4294967296 := by
  have h : (4294967296 : Nat) = 2 ^ 32 := by norm_num
  rw [h] at ha hb ⊢
  exact Nat.bitwise_lt ha hb

lemma crcTableEntry_lt (i : Nat) (hi : i < 4294967296) :
    crcTableEntry i < 4294967296 := by
  unfold crcTableEntry
  have step : ∀ l : List Nat, ∀ crc < 4294967296,
      l.foldl (fun crc _ =>
        if crc % 2 = 1 then Nat.xor 0xEDB88320 (crc / 2) else crc / 2) crc <
        4294967296 := by
    intro l
    induction l with
    | nil => intro crc h; exact h
    | cons x xs ih =>
      intro crc h
      rw [List.foldl_cons]
      apply ih
      split
      · exact xor_lt_32 (by norm_num) (by omega)
      · omega
  exact step _ i hi

lemma crc32_lt (buf : List Nat) : crc32 buf < 4294967296 := by
  unfold crc32
  apply xor_lt_32 _ (by norm_num)
  have step : ∀ l : List Nat, ∀ crc < 4294967296,
      l.foldl (fun crc b =>
        Nat.xor (crc / 256) (crcTableEntry (Nat.xor crc b % 256))) crc <
        4294967296 := by
    intro l
    induction l with
    | nil => intro crc h; exact h
    | cons x xs ih =>
      intro crc h
      rw [List.foldl_cons]
      apply ih
      exact xor_lt_32 (by omega) (crcTableEntry_lt _ (by omega))
  exact step _ _ (by norm_num)

lemma getRandomDegree_clamp (k : Nat) (rv : ℚ)
    (h : ∀ d, 1 ≤ d → d ≤ k → isdCum k d ≤ rv) :
    getRandomDegree k rv = k := by
  unfold getRandomDegree
  cases hs : scanPick rv (cumulativeFrom 0 (isdProbabilities k)) with
  | none => rfl
  | some i =>
    obtain ⟨hi1, hi2, hi3, _⟩ := scanPick_some rv _ i hs
    rw [cumulativeFrom_length, isdProbabilities_length] at hi2
    rw [cums_getD_eq_isdCum k i hi1 hi2] at hi3
    exact absurd hi3 (not_lt.mpr (h i hi1 hi2))

lemma make_indices_length (deflate : Option (List Nat → List Nat)) (data : List Nat)
    (ss : Nat) :
    ∀ s ∈ (LtEncoder.make deflate data ss).indices, s.length = ss := by
  intro s hs
  exact sliceGo_mem_length ss _ _ s hs

lemma make_k_eq_indices_length (deflate : Option (List Nat → List Nat)) (data : List Nat)
    (ss : Nat) :
    (LtEncoder.make deflate data ss).indices.length = (LtEncoder.make deflate data ss).k :=
  rfl

lemma fountainStep_indices (enc : LtEncoder) (rv : ℚ) (draws : List Nat)
    (b : EncodedBlock) (hk : 1 ≤ enc.k) (henc : enc.indices.length = enc.k)
    (hdr : ∀ d ∈ draws, d < enc.k)
    (hb : fountainStep enc rv draws = some b) :
    b.indices ≠ [] ∧ b.indices.Nodup ∧ (∀ i ∈ b.indices, i < enc.k) ∧
      b.indices.length = getRandomDegree enc.k rv ∧ b.k = enc.k := by
  unfold fountainStep at hb
  cases hidx : getRandomIndices enc.k (getRandomDegree enc.k rv) draws with
  | none => rw [hidx] at hb; cases hb
  | some idxs =>
    rw [hidx] at hb
    obtain ⟨hlen, hnd, hlt⟩ :=
      griGo_some enc.k (getRandomDegree enc.k rv) draws [] idxs hdr (by simp)
        List.nodup_nil (by simp) hidx
    unfold LtEncoder.createBlock at hb
    have hcond : enc.sliceSize = 0 ∨ ∀ i ∈ idxs, i < enc.indices.length :=
      Or.inr fun i hi => by rw [henc]; exact hlt i hi
    have hb' : (if enc.sliceSize = 0 ∨ ∀ i ∈ idxs, i < enc.indices.length then
        some { k := enc.k, bytes := enc.bytes, checksum := enc.checksum, indices := idxs,
               data := List.foldl (fun acc i => xorArr acc (enc.indices.getD i []))
                 (List.replicate enc.sliceSize 0) idxs }
      else none) = some b := hb
    rw [if_pos hcond] at hb'
    injection hb' with hb'
    subst hb'
    refine ⟨?_, hnd, hlt, hlen, rfl⟩
    have hpos := getRandomDegree_pos enc.k hk rv
    intro hnil
    have hnil' : idxs = [] := hnil
    rw [hnil'] at hlen
    simp at hlen
    omega

/-! ## Claim theorems -/

/-- Claim C1.  The claimed round-trip `binaryToBlock (blockToBinary block) = block`
FAILS on the code: the encoder stores header words through a `Uint32Array`
(host little-endian), while the decoder reads them big-endian through a
`DataView`, so on the minimal well-formed block `blockB0` the decoder
misreads the degree word `01 00 00 00` as 16777216, runs its index loop off
the end of the 21-byte buffer, and dies with a `RangeError` (modelled as
`none`) instead of returning the block. -/
theorem decode_encode_roundTrip_fails_on_blockB0 :
    binaryToBlock (blockToBinary blockB0) = none := by
  decide

/-- Claim C2.  `binaryToBlock` performs NONE of the claimed `MalformedBlock`
validation: a buffer whose embedded degree field is 0 decodes successfully
to a block with empty `indices` (first conjunct), and a buffer whose index
list contains a duplicate also decodes successfully (second conjunct);
no `MalformedBlock` error exists anywhere in the code. -/
theorem binaryToBlock_accepts_malformed :
    binaryToBlock (List.replicate 16 0) = some ⟨0, 0, 0, [], []⟩ ∧
    binaryToBlock
        [0, 0, 0, 2, 0, 0, 0, 0, 0, 0, 0, 0, 0, 0, 0, 1, 0, 0, 0, 0, 0, 0, 0, 0] =
      some ⟨1, 0, 0, [0, 0], []⟩ := by
  decide

/-- Claim C3.  `blockToBinary` has the claimed total length and puts `data`
verbatim after the header, but writes the header words LITTLE-endian (host
byte order of the `Uint32Array` buffer), not big-endian as claimed: on
`blockB0` the degree word is emitted as `01 00 00 00`, and the output
differs from the spec's big-endian layout `blockToBinaryBE`. -/
theorem blockToBinary_little_endian :
    blockToBinary blockB0 =
      [1, 0, 0, 0, 0, 0, 0, 0, 1, 0, 0, 0, 1, 0, 0, 0, 0, 0, 0, 0, 7] ∧
    blockToBinaryBE blockB0 =
      [0, 0, 0, 1, 0, 0, 0, 0, 0, 0, 0, 1, 0, 0, 0, 1, 0, 0, 0, 0, 7] ∧
    blockToBinary blockB0 ≠ blockToBinaryBE blockB0 := by
  decide

/-- Claim C4.  The `LtEncoder` constructor never raises the claimed
`EmptyPayload` error: with an empty payload and compression disabled it
succeeds and yields `k = 0` (an empty slice table), contradicting both the
"fails with EmptyPayload" and the "k >= 1 on success" halves of the
claim. -/
theorem make_accepts_empty_payload :
    (LtEncoder.make none [] 1).k = 0 ∧
    (LtEncoder.make none [] 1).indices = [] ∧
    (LtEncoder.make none [] 1).bytes = 0 := by
  refine ⟨rfl, rfl, rfl⟩

/-- Claim C5.  `getChecksum data k` is total and equals the 32-bit value
`crc32 data XOR k`; it stays below 2^32 whenever `k` does; `crc32` meets
the published IEEE test vector on "The quick brown fox jumps over the lazy
dog"; and the encoder stores `getChecksum` of the ORIGINAL payload `data`
(not of the compressed form) paired with its slice count `k`, for every
compression transform. -/
theorem getChecksum_spec (data : List Nat) (k : Nat) (hk : k < 4294967296) :
    getChecksum data k = Nat.xor (crc32 data) k ∧
    getChecksum data k < 4294967296 ∧
    crc32 quickFox = 0x414FA339 ∧
    ∀ (deflate : Option (List Nat → List Nat)) (sliceSize : Nat),
      (LtEncoder.make deflate data sliceSize).checksum =
        getChecksum data (LtEncoder.make deflate data sliceSize).k := by
  refine ⟨rfl, xor_lt_32 (crc32_lt data) hk, ?_, fun deflate ss => rfl⟩
  decide

/-- Witness for C5 at `data = []`, `k = 1` (`crc32 [] = 0`, so the checksum
is 1). -/
theorem getChecksum_spec_witness :
    (1 : Nat) < 4294967296 ∧ getChecksum [] 1 = 1 ∧
    (getChecksum [] 1 = Nat.xor (crc32 []) 1 ∧
      getChecksum [] 1 < 4294967296 ∧
      crc32 quickFox = 0x414FA339 ∧
      ∀ (deflate : Option (List Nat → List Nat)) (sliceSize : Nat),
        (LtEncoder.make deflate [] sliceSize).checksum =
          getChecksum [] (LtEncoder.make deflate [] sliceSize).k) :=
  ⟨by norm_num, by decide, getChecksum_spec [] 1 (by norm_num)⟩

/-- Claim C9.  For non-empty data and `sliceSize ≥ 1`, `sliceData` yields
`ceil(length / sliceSize)` chunks, every chunk has exactly `sliceSize`
bytes, and the chunks concatenate back to the data followed by the zero
padding of the final chunk. -/
theorem sliceData_partitions (data : List Nat) (bs : Nat)
    (hd : data ≠ []) (hb : 1 ≤ bs) :
    (sliceData data bs).length = (data.length + bs - 1) / bs ∧
    (∀ s ∈ sliceData data bs, s.length = bs) ∧
    (sliceData data bs).flatten =
      data ++ List.replicate ((sliceData data bs).length * bs - data.length) 0 := by
  refine ⟨?_, fun s hs => sliceGo_mem_length bs _ _ s hs,
    sliceGo_flatten bs hb _ _ le_rfl⟩
  rw [sliceData, sliceGo_length bs hb _ _ le_rfl hd]
  have hlen : 1 ≤ data.length := by
    cases data with
    | nil => exact absurd rfl hd
    | cons x xs => simp
  have heq : data.length + bs - 1 = (data.length - 1) + bs := by omega
  rw [heq, Nat.add_div_right _ (by omega)]

/-- Claim C6.  For valid indices (each below `k`), `createBlock` succeeds
and returns a block carrying the encoder's constant `k`, `bytes` and
`checksum`, the given indices, and a data buffer of exactly `sliceSize`
bytes equal to the XOR-fold of the named slices over an all-zero buffer;
for a single index `i` the data is exactly slice `i`.  (The model is pure,
so the encoder's slice table is untouched by construction.) -/
theorem createBlock_xor_fold (deflate : Option (List Nat → List Nat)) (data : List Nat)
    (ss : Nat) (idxs : List Nat)
    (h : ∀ i ∈ idxs, i < (LtEncoder.make deflate data ss).k) :
    (∃ b, (LtEncoder.make deflate data ss).createBlock idxs = some b ∧
      b.k = (LtEncoder.make deflate data ss).k ∧
      b.bytes = (LtEncoder.make deflate data ss).bytes ∧
      b.checksum = (LtEncoder.make deflate data ss).checksum ∧
      b.indices = idxs ∧
      b.data.length = ss ∧
      b.data = idxs.foldl
        (fun acc i => xorArr acc ((LtEncoder.make deflate data ss).indices.getD i []))
        (List.replicate ss 0)) ∧
    ∀ i, i < (LtEncoder.make deflate data ss).k →
      (LtEncoder.make deflate data ss).createBlock [i] =
        some ⟨(LtEncoder.make deflate data ss).k, (LtEncoder.make deflate data ss).bytes,
          (LtEncoder.make deflate data ss).checksum, [i],
          (LtEncoder.make deflate data ss).indices.getD i []⟩ := by
  have henc := make_k_eq_indices_length deflate data ss
  constructor
  · have hcond : (LtEncoder.make deflate data ss).sliceSize = 0 ∨
        ∀ i ∈ idxs, i < (LtEncoder.make deflate data ss).indices.length :=
      Or.inr fun i hi => by rw [henc]; exact h i hi
    unfold LtEncoder.createBlock
    rw [if_pos hcond]
    refine ⟨_, rfl, rfl, rfl, rfl, rfl, ?_, rfl⟩
    show (idxs.foldl
      (fun acc i => xorArr acc ((LtEncoder.make deflate data ss).indices.getD i []))
      (List.replicate (LtEncoder.make deflate data ss).sliceSize 0)).length = ss
    rw [foldl_xorArr_length, List.length_replicate]
    rfl
  · intro i hi
    have hlen : i < (LtEncoder.make deflate data ss).indices.length := by
      rw [henc]; exact hi
    have hcond : (LtEncoder.make deflate data ss).sliceSize = 0 ∨
        ∀ j ∈ [i], j < (LtEncoder.make deflate data ss).indices.length :=
      Or.inr fun j hj => by
        rw [List.mem_singleton.mp hj]; exact hlen
    have hmem : (LtEncoder.make deflate data ss).indices.getD i [] ∈
        (LtEncoder.make deflate data ss).indices := by
      rw [List.getD_eq_getElem _ _ hlen]
      exact List.getElem_mem hlen
    have hsl := make_indices_length deflate data ss _ hmem
    unfold LtEncoder.createBlock
    rw [if_pos hcond]
    have hdata : List.foldl
        (fun acc j => xorArr acc ((LtEncoder.make deflate data ss).indices.getD j []))
        (List.replicate (LtEncoder.make deflate data ss).sliceSize 0) [i] =
        (LtEncoder.make deflate data ss).indices.getD i [] := by
      rw [List.foldl_cons, List.foldl_nil]
      have hrep : List.replicate (LtEncoder.make deflate data ss).sliceSize 0 =
          List.replicate ((LtEncoder.make deflate data ss).indices.getD i []).length 0 := by
        rw [hsl]
        rfl
      rw [hrep]
      exact xorArr_replicate_zero _
    rw [hdata]

/-- Witness for C6 on the padded two-slice encoder `[1,2,3]`, `sliceSize 2`:
its slices are `[1,2]` and `[3,0]`, and `createBlock [0,1]` XORs them to
`[2,2]`. -/
theorem createBlock_xor_fold_witness :
    (∀ i ∈ ([0, 1] : List Nat), i < (LtEncoder.make none [1, 2, 3] 2).k) ∧
    (LtEncoder.make none [1, 2, 3] 2).createBlock [0, 1] =
      some ⟨2, 3, getChecksum [1, 2, 3] 2, [0, 1], [2, 2]⟩ ∧
    ((∃ b, (LtEncoder.make none [1, 2, 3] 2).createBlock [0, 1] = some b ∧
      b.k = (LtEncoder.make none [1, 2, 3] 2).k ∧
      b.bytes = (LtEncoder.make none [1, 2, 3] 2).bytes ∧
      b.checksum = (LtEncoder.make none [1, 2, 3] 2).checksum ∧
      b.indices = [0, 1] ∧
      b.data.length = 2 ∧
      b.data = ([0, 1] : List Nat).foldl
        (fun acc i => xorArr acc ((LtEncoder.make none [1, 2, 3] 2).indices.getD i []))
        (List.replicate 2 0)) ∧
    ∀ i, i < (LtEncoder.make none [1, 2, 3] 2).k →
      (LtEncoder.make none [1, 2, 3] 2).createBlock [i] =
        some ⟨(LtEncoder.make none [1, 2, 3] 2).k, (LtEncoder.make none [1, 2, 3] 2).bytes,
          (LtEncoder.make none [1, 2, 3] 2).checksum, [i],
          (LtEncoder.make none [1, 2, 3] 2).indices.getD i []⟩) :=
  ⟨by decide, by decide, createBlock_xor_fold none [1, 2, 3] 2 [0, 1] (by decide)⟩

/-- Claim C7.  Whenever `getRandomIndices k degree` returns (here: whenever
the explicit draw supply suffices), the result has exactly `degree`
elements, pairwise distinct, all in `[0, k)` — for any draws the randomness
source produces (each scaled draw is below `k`). -/
theorem getRandomIndices_distinct (k degree : Nat) (draws : List Nat) (l : List Nat)
    (_hk : 1 ≤ k) (_hd1 : 1 ≤ degree) (_hdk : degree ≤ k)
    (hdr : ∀ d ∈ draws, d < k)
    (hret : getRandomIndices k degree draws = some l) :
    l.length = degree ∧ l.Nodup ∧ ∀ x ∈ l, x < k :=
  griGo_some k degree draws [] l hdr (by simp) List.nodup_nil (by simp) hret

/-- Witness for C7 at `k = 3`, `degree = 2`, draws `[1,1,0]`: the repeated
draw `1` is rejected by the set and the result is `[1,0]`. -/
theorem getRandomIndices_distinct_witness :
    (1 : Nat) ≤ 3 ∧ (1 : Nat) ≤ 2 ∧ (2 : Nat) ≤ 3 ∧
    (∀ d ∈ ([1, 1, 0] : List Nat), d < 3) ∧
    getRandomIndices 3 2 [1, 1, 0] = some [1, 0] ∧
    (([1, 0] : List Nat).length = 2 ∧ ([1, 0] : List Nat).Nodup ∧
      ∀ x ∈ ([1, 0] : List Nat), x < 3) :=
  ⟨by decide, by decide, by decide, by decide, by decide,
    getRandomIndices_distinct 3 2 [1, 1, 0] [1, 0] (by decide) (by decide) (by decide)
      (by decide) (by decide)⟩

/-- Claim C8.  For `k ≥ 1` and any draw in `[0,1)`, `getRandomDegree`
returns an integer in `[1, k]`, namely the smallest `d` whose cumulative
Ideal-Soliton probability exceeds the draw; `k = 1` always yields 1; and
whenever the cumulative scan leaves the draw unmatched (the rounding case
the spec describes), the function clamps to `k` instead of failing. -/
theorem getRandomDegree_spec (k : Nat) (rv : ℚ) (hk : 1 ≤ k) :
    (0 ≤ rv → rv < 1 →
      (1 ≤ getRandomDegree k rv ∧ getRandomDegree k rv ≤ k) ∧
      rv < isdCum k (getRandomDegree k rv) ∧
      (∀ d, 1 ≤ d → d < getRandomDegree k rv → isdCum k d ≤ rv) ∧
      (k = 1 → getRandomDegree k rv = 1)) ∧
    ((∀ d, 1 ≤ d → d ≤ k → isdCum k d ≤ rv) → getRandomDegree k rv = k) := by
  constructor
  · intro _ hrv1
    refine ⟨⟨getRandomDegree_pos k hk rv, getRandomDegree_le k rv⟩,
      getRandomDegree_exceeds k hk rv hrv1, getRandomDegree_min k rv, ?_⟩
    intro hk1
    have h1 := getRandomDegree_pos k hk rv
    have h2 := getRandomDegree_le k rv
    omega
  · exact getRandomDegree_clamp k rv

/-- Witness for C8 at `k = 3`, draw `1/2`: the cumulative probabilities are
`1/3, 5/6, 1`, so the selected degree is 2. -/
theorem getRandomDegree_spec_witness :
    (1 : Nat) ≤ 3 ∧ getRandomDegree 3 (1 / 2) = 2 ∧
    ((0 ≤ (1 / 2 : ℚ) → (1 / 2 : ℚ) < 1 →
      (1 ≤ getRandomDegree 3 (1 / 2) ∧ getRandomDegree 3 (1 / 2) ≤ 3) ∧
      (1 / 2 : ℚ) < isdCum 3 (getRandomDegree 3 (1 / 2)) ∧
      (∀ d, 1 ≤ d → d < getRandomDegree 3 (1 / 2) → isdCum 3 d ≤ (1 / 2 : ℚ)) ∧
      (3 = 1 → getRandomDegree 3 (1 / 2) = 1)) ∧
    ((∀ d, 1 ≤ d → d ≤ 3 → isdCum 3 d ≤ (1 / 2 : ℚ)) → getRandomDegree 3 (1 / 2) = 3)) :=
  ⟨by norm_num,
    by norm_num [getRandomDegree, isdProbabilities, cumulativeFrom, scanPick,
      List.range_succ],
    getRandomDegree_spec 3 (1 / 2) (by norm_num)⟩

/-- Witness for C9 at `data = [1,2,3]`, `sliceSize = 2`: two chunks
`[[1,2],[3,0]]`, the last zero-padded. -/
theorem sliceData_partitions_witness :
    ([1, 2, 3] : List Nat) ≠ [] ∧ (1 : Nat) ≤ 2 ∧
    sliceData [1, 2, 3] 2 = [[1, 2], [3, 0]] ∧
    ((sliceData [1, 2, 3] 2).length = (([1, 2, 3] : List Nat).length + 2 - 1) / 2 ∧
      (∀ s ∈ sliceData [1, 2, 3] 2, s.length = 2) ∧
      (sliceData [1, 2, 3] 2).flatten =
        [1, 2, 3] ++
          List.replicate ((sliceData [1, 2, 3] 2).length * 2 -
            ([1, 2, 3] : List Nat).length) 0) :=
  ⟨by decide, by decide, by decide,
    sliceData_partitions [1, 2, 3] 2 (by decide) (by decide)⟩

/-- Claim C10 counterexample.  The claim that emitted blocks carry their
indices "ordered ascending" is FALSE: `getRandomIndices` returns the JS
`Set` in insertion order and nothing sorts it, so on the five-slice encoder
with degree draw `1/2` (degree 2) and index draws `3` then `1`, the emitted
block's indices are `[3, 1]`, which is not ascending. -/
theorem fountain_indices_not_sorted :
    (fountainStep encFive (1 / 2) [3, 1]).map EncodedBlock.indices = some [3, 1] ∧
    ¬ ([3, 1] : List Nat).Sorted (· ≤ ·) := by
  constructor
  · have h5 : encFive.k = 5 := by decide
    have hdeg : getRandomDegree encFive.k (1 / 2) = 2 := by
      rw [h5]
      norm_num [getRandomDegree, isdProbabilities, cumulativeFrom, scanPick,
        List.range_succ]
    simp only [fountainStep]
    rw [hdeg]
    decide
  · decide

/-- Claim C10 (amended).  Every block emitted by a fountain step carries a
non-empty list of distinct indices, all in `[0, k)`, whose length is the
drawn degree, in the insertion order of the random draws (NOT necessarily
ascending), together with the encoder's `k`. -/
theorem fountain_block_indices (deflate : Option (List Nat → List Nat)) (data : List Nat)
    (ss : Nat) (rv : ℚ) (draws : List Nat) (b : EncodedBlock)
    (hk : 1 ≤ (LtEncoder.make deflate data ss).k)
    (hdr : ∀ d ∈ draws, d < (LtEncoder.make deflate data ss).k)
    (hb : fountainStep (LtEncoder.make deflate data ss) rv draws = some b) :
    b.indices ≠ [] ∧ b.indices.Nodup ∧
      (∀ i ∈ b.indices, i < (LtEncoder.make deflate data ss).k) ∧
      b.indices.length = getRandomDegree (LtEncoder.make deflate data ss).k rv ∧
      b.k = (LtEncoder.make deflate data ss).k :=
  fountainStep_indices _ rv draws b hk (make_k_eq_indices_length deflate data ss) hdr hb

/-- Witness for the amended C10 on the five-slice encoder with degree draw
`1/2` and index draws `[3, 1]`: the emitted block is
`⟨5, 5, 3504037409, [3, 1], [60]⟩` (`40 XOR 20 = 60`). -/
theorem fountain_block_indices_witness :
    1 ≤ (LtEncoder.make none [10, 20, 30, 40, 50] 1).k ∧
    (∀ d ∈ ([3, 1] : List Nat), d < (LtEncoder.make none [10, 20, 30, 40, 50] 1).k) ∧
    fountainStep (LtEncoder.make none [10, 20, 30, 40, 50] 1) (1 / 2) [3, 1] =
      some ⟨5, 5, 3504037409, [3, 1], [60]⟩ ∧
    ((⟨5, 5, 3504037409, [3, 1], [60]⟩ : EncodedBlock).indices ≠ [] ∧
      (⟨5, 5, 3504037409, [3, 1], [60]⟩ : EncodedBlock).indices.Nodup ∧
      (∀ i ∈ (⟨5, 5, 3504037409, [3, 1], [60]⟩ : EncodedBlock).indices,
        i < (LtEncoder.make none [10, 20, 30, 40, 50] 1).k) ∧
      (⟨5, 5, 3504037409, [3, 1], [60]⟩ : EncodedBlock).indices.length =
        getRandomDegree (LtEncoder.make none [10, 20, 30, 40, 50] 1).k (1 / 2) ∧
      (⟨5, 5, 3504037409, [3, 1], [60]⟩ : EncodedBlock).k =
        (LtEncoder.make none [10, 20, 30, 40, 50] 1).k) := by
  have hdeg : getRandomDegree (LtEncoder.make none [10, 20, 30, 40, 50] 1).k (1 / 2) = 2 := by
    have h5 : (LtEncoder.make none [10, 20, 30, 40, 50] 1).k = 5 := by decide
    rw [h5]
    norm_num [getRandomDegree, isdProbabilities, cumulativeFrom, scanPick,
      List.range_succ]
  have hb : fountainStep (LtEncoder.make none [10, 20, 30, 40, 50] 1) (1 / 2) [3, 1] =
      some ⟨5, 5, 3504037409, [3, 1], [60]⟩ := by
    simp only [fountainStep]
    rw [hdeg]
    decide
  exact ⟨by decide, by decide, hb,
    fountain_block_indices none [10, 20, 30, 40, 50] 1 (1 / 2) [3, 1]
      ⟨5, 5, 3504037409, [3, 1], [60]⟩ (by decide) (by decide) hb⟩

end QRS
